import Mathlib

/-!
# Verification of the gin-test repository

Two parts are verified here.

* The symmetric-encryption toolkit (padding strategies, the six chaining
  modes CBC/ECB/CFB/OFB/CTR/GCM and their facade constructors).  The
  repository ships only the test file for this toolkit
  (`TestCBCCrypto` … `TestGCMCrypto` in `src/dao/article_dao.go`); the
  implementation itself is absent from `src/`, so every definition in the
  `Crypto` section is modelled from the specification, with the block
  cipher primitive kept abstract exactly as the specification treats it
  ("an external, trusted building block … not reimplemented").
* The utility functions that are present in `src/dao/article_dao.go`:
  `GetGoodsCodeNum`, `IP2Long` and `Long2IP`.  These are embedded
  directly from the Go source.

Bytes are modelled as natural numbers; every operation that the Go code
performs on a `byte` keeps values below 256 (`% 256` appears exactly where
Go truncates).
-/

/-- Modelled from the spec: the error taxonomy of §7 of the design
specification (`InvalidKeyLength`, `InvalidIVLength`, `InvalidNonceLength`,
`InvalidCiphertextLength`, `InvalidPadding`, `AuthenticationFailed`). -/
inductive CryptoError where
  | InvalidKeyLength
  | InvalidIVLength
  | InvalidNonceLength
  | InvalidCiphertextLength
  | InvalidPadding
  | AuthenticationFailed
deriving DecidableEq, Repr

/-- Byte-wise exclusive or of two byte sequences, truncated to the shorter
one (this is how the Go stream modes combine a partial final block with a
full keystream block). -/
def xorBytes (a b : List Nat) : List Nat :=
  List.zipWith Nat.xor a b

/-- Modelled from the spec: the abstract Block Cipher Primitive of §2 — a
128-bit-block symmetric cipher keyed at 128/192/256 bits, treated as a
collaborator and not reimplemented.  `enc` and `dec` stand for the forward
and inverse single-block transforms of the primitive already keyed with the
facade's key. -/
structure BlockCipher where
  enc : List Nat → List Nat
  dec : List Nat → List Nat

/-- The contract the specification assumes of the block cipher primitive:
both transforms map 16-byte blocks to 16-byte blocks and `dec` inverts
`enc` on 16-byte blocks. -/
def BlockCipher.good (A : BlockCipher) : Prop :=
  (∀ b : List Nat, b.length = 16 → (A.enc b).length = 16) ∧
  (∀ b : List Nat, b.length = 16 → (A.dec b).length = 16) ∧
  (∀ b : List Nat, b.length = 16 → A.dec (A.enc b) = b)

/-- The identity block cipher: a trivial instance of the abstract
primitive, used to instantiate theorems at concrete inputs. -/
def idCipher : BlockCipher :=
  { enc := fun b => b, dec := fun b => b }

/-- Modelled from the spec: the padding scheme selector {Zero, PKCS5,
PKCS7} of §3 (Go constant names `ZERO`, `PKCS5`, `PKCS7` as used by the
tests). -/
inductive PaddingMode where
  | ZERO
  | PKCS5
  | PKCS7
deriving DecidableEq, Repr

/-- Modelled from the spec: Zero padding `Pad` — appends `0x00` bytes until
the length is a multiple of `blockSize`; if the data is already
block-aligned (including empty data) a full block of zeros is still
appended. -/
def zeroPad (data : List Nat) (blockSize : Nat) : List Nat :=
  data ++ List.replicate (blockSize - data.length % blockSize) 0

/-- Strip all trailing `0x00` bytes from a byte sequence. -/
def dropTrailingZeros (l : List Nat) : List Nat :=
  (l.reverse.dropWhile (fun b => b = 0)).reverse

/-- Modelled from the spec: Zero padding `Unpad` — strips all trailing
`0x00` bytes; it never fails. -/
def zeroUnpad (data : List Nat) : Except CryptoError (List Nat) :=
  Except.ok (dropTrailingZeros data)

/-- Modelled from the spec: PKCS5/PKCS7 `Pad` — appends `n` bytes each
holding the value `n`, where `n = blockSize - (len(data) mod blockSize)`;
block-aligned data receives a full block of padding. -/
def pkcsPad (data : List Nat) (blockSize : Nat) : List Nat :=
  data ++ List.replicate (blockSize - data.length % blockSize)
    (blockSize - data.length % blockSize)

/-- Modelled from the spec: PKCS5/PKCS7 `Unpad` — reads the last byte as
`n`; if `n` is 0, greater than `blockSize`, or any of the last `n` bytes
does not equal `n`, it fails with `InvalidPadding`; otherwise it returns
the input without its last `n` bytes. -/
def pkcsUnpad (data : List Nat) (blockSize : Nat) : Except CryptoError (List Nat) :=
  match data.getLast? with
  | none => Except.error CryptoError.InvalidPadding
  | some n =>
    if n = 0 ∨ blockSize < n ∨
        ¬ ((data.drop (data.length - n)).all (fun b => b = n)) then
      Except.error CryptoError.InvalidPadding
    else
      Except.ok (data.take (data.length - n))

/-- Modelled from the spec: dispatch of `Pad` over the padding selector
(PKCS5 and PKCS7 are operationally identical for this toolkit, §9). -/
def padBy : PaddingMode → List Nat → Nat → List Nat
  | PaddingMode.ZERO, data, bs => zeroPad data bs
  | PaddingMode.PKCS5, data, bs => pkcsPad data bs
  | PaddingMode.PKCS7, data, bs => pkcsPad data bs

/-- Modelled from the spec: dispatch of `Unpad` over the padding selector. -/
def unpadBy : PaddingMode → List Nat → Nat → Except CryptoError (List Nat)
  | PaddingMode.ZERO, data, _ => zeroUnpad data
  | PaddingMode.PKCS5, data, bs => pkcsUnpad data bs
  | PaddingMode.PKCS7, data, bs => pkcsUnpad data bs

/-- Drive a per-block step function across a byte sequence 16 bytes at a
time, threading a chaining state (the Mode Engine skeleton shared by all
six modes: each step consumes one block — possibly a short final one — and
produces the output chunk together with the next chaining state).  The
fuel argument is always instantiated with the length of the input, which
is enough because every round consumes at least one byte. -/
def chainMap (step : List Nat → List Nat → List Nat × List Nat) :
    Nat → List Nat → List Nat → List Nat
  | 0, _, _ => []
  | _ + 1, _, [] => []
  | fuel + 1, st, a :: as =>
    (step st ((a :: as).take 16)).1 ++
      chainMap step fuel (step st ((a :: as).take 16)).2 ((a :: as).drop 16)

/-- Modelled from the spec: one CBC encryption round — the plaintext block
is XORed with the previous ciphertext block (initially the IV) before the
forward transform; the ciphertext block becomes the new chaining state. -/
def cbcEncStep (E : List Nat → List Nat) (prev blk : List Nat) :
    List Nat × List Nat :=
  (E (xorBytes blk prev), E (xorBytes blk prev))

/-- Modelled from the spec: one CBC decryption round — inverse transform,
then XOR with the previous ciphertext block (initially the IV); the
received ciphertext block becomes the new chaining state. -/
def cbcDecStep (D : List Nat → List Nat) (prev blk : List Nat) :
    List Nat × List Nat :=
  (xorBytes (D blk) prev, blk)

/-- Modelled from the spec: one ECB encryption round — each block is
transformed independently, with no chaining. -/
def ecbEncStep (E : List Nat → List Nat) (st blk : List Nat) :
    List Nat × List Nat :=
  (E blk, st)

/-- Modelled from the spec: one ECB decryption round. -/
def ecbDecStep (D : List Nat → List Nat) (st blk : List Nat) :
    List Nat × List Nat :=
  (D blk, st)

/-- Modelled from the spec: one CFB encryption round — the keystream block
is the forward transform of the previous ciphertext block (seeded by the
IV); the ciphertext chunk feeds back as the next state. -/
def cfbEncStep (E : List Nat → List Nat) (prev blk : List Nat) :
    List Nat × List Nat :=
  (xorBytes blk (E prev), xorBytes blk (E prev))

/-- Modelled from the spec: one CFB decryption round — the same forward
transform regenerates the keystream (the inverse transform is never used);
the received ciphertext chunk feeds back as the next state. -/
def cfbDecStep (E : List Nat → List Nat) (prev blk : List Nat) :
    List Nat × List Nat :=
  (xorBytes blk (E prev), blk)

/-- Modelled from the spec: one OFB round — the keystream block is the
forward transform of the previous keystream block (seeded by the IV);
Encrypt and Decrypt use this identical step. -/
def ofbStep (E : List Nat → List Nat) (prev blk : List Nat) :
    List Nat × List Nat :=
  (xorBytes blk (E prev), E prev)

/-- Big-endian increment with carry of a reversed byte sequence. -/
def incrCounterRev : List Nat → List Nat
  | [] => []
  | x :: xs => if x + 1 < 256 then (x + 1) :: xs else 0 :: incrCounterRev xs

/-- Modelled from the spec: CTR counter increment — the 16-byte counter
block is incremented as a big-endian integer, wrapping within the block
width. -/
def incrCounter (b : List Nat) : List Nat :=
  (incrCounterRev b.reverse).reverse

/-- Modelled from the spec: one CTR round — the keystream block is the
forward transform of the current counter block, and the counter is
incremented per block; Encrypt and Decrypt use this identical step. -/
def ctrStep (E : List Nat → List Nat) (ctr blk : List Nat) :
    List Nat × List Nat :=
  (xorBytes blk (E ctr), incrCounter ctr)

/-- CBC chaining across a whole (already padded) message. -/
def cbcEnc (E : List Nat → List Nat) (iv l : List Nat) : List Nat :=
  chainMap (cbcEncStep E) l.length iv l

/-- CBC inverse chaining across a whole ciphertext. -/
def cbcDec (D : List Nat → List Nat) (iv l : List Nat) : List Nat :=
  chainMap (cbcDecStep D) l.length iv l

/-- ECB transform across a whole (already padded) message. -/
def ecbEnc (E : List Nat → List Nat) (l : List Nat) : List Nat :=
  chainMap (ecbEncStep E) l.length [] l

/-- ECB inverse transform across a whole ciphertext. -/
def ecbDec (D : List Nat → List Nat) (l : List Nat) : List Nat :=
  chainMap (ecbDecStep D) l.length [] l

/-- CFB encryption stream across a whole message. -/
def cfbEnc (E : List Nat → List Nat) (iv l : List Nat) : List Nat :=
  chainMap (cfbEncStep E) l.length iv l

/-- CFB decryption stream across a whole ciphertext. -/
def cfbDec (E : List Nat → List Nat) (iv l : List Nat) : List Nat :=
  chainMap (cfbDecStep E) l.length iv l

/-- OFB keystream XOR across a whole message (used by both directions). -/
def ofbStream (E : List Nat → List Nat) (iv l : List Nat) : List Nat :=
  chainMap (ofbStep E) l.length iv l

/-- CTR keystream XOR across a whole message (used by both directions). -/
def ctrStream (E : List Nat → List Nat) (ctr l : List Nat) : List Nat :=
  chainMap (ctrStep E) l.length ctr l

/-- Modelled from the spec: the CBC Cipher Facade state — key, IV and
padding selector, all fixed at construction. -/
structure CBCCrypto where
  key : List Nat
  iv : List Nat
  mode : PaddingMode
deriving DecidableEq, Repr

/-- Modelled from the spec: `NewCBCCrypto` — validates the key length
(16/24/32, else `InvalidKeyLength`) and the IV length (16, else
`InvalidIVLength`) once, at construction; a failure prevents a usable
cipher object from existing. -/
def NewCBCCrypto (key iv : List Nat) (mode : PaddingMode) :
    Except CryptoError CBCCrypto :=
  if ¬ (key.length = 16 ∨ key.length = 24 ∨ key.length = 32) then
    Except.error CryptoError.InvalidKeyLength
  else if iv.length ≠ 16 then
    Except.error CryptoError.InvalidIVLength
  else
    Except.ok { key := key, iv := iv, mode := mode }

/-- Modelled from the spec: CBC `Encrypt` — pad, then chain.  `A` is the
block cipher primitive keyed with the facade's key.  No parameter is
re-validated here: the checks happened at construction. -/
def CBCCrypto.Encrypt (A : BlockCipher) (c : CBCCrypto) (p : List Nat) :
    List Nat :=
  cbcEnc A.enc c.iv (padBy c.mode p 16)

/-- Modelled from the spec: CBC `Decrypt` — fails with
`InvalidCiphertextLength` if the ciphertext is not block-aligned, then
inverse-chains and unpads (`InvalidPadding` surfaces from `Unpad`). -/
def CBCCrypto.Decrypt (A : BlockCipher) (c : CBCCrypto) (ct : List Nat) :
    Except CryptoError (List Nat) :=
  if ct.length % 16 ≠ 0 then Except.error CryptoError.InvalidCiphertextLength
  else unpadBy c.mode (cbcDec A.dec c.iv ct) 16

/-- Modelled from the spec: the ECB Cipher Facade state. -/
structure ECBCrypto where
  key : List Nat
  mode : PaddingMode
deriving DecidableEq, Repr

/-- Modelled from the spec: `NewECBCrypto` — validates the key length once,
at construction. -/
def NewECBCrypto (key : List Nat) (mode : PaddingMode) :
    Except CryptoError ECBCrypto :=
  if ¬ (key.length = 16 ∨ key.length = 24 ∨ key.length = 32) then
    Except.error CryptoError.InvalidKeyLength
  else
    Except.ok { key := key, mode := mode }

/-- Modelled from the spec: ECB `Encrypt` — pad, then transform each block
independently. -/
def ECBCrypto.Encrypt (A : BlockCipher) (c : ECBCrypto) (p : List Nat) :
    List Nat :=
  ecbEnc A.enc (padBy c.mode p 16)

/-- Modelled from the spec: ECB `Decrypt`. -/
def ECBCrypto.Decrypt (A : BlockCipher) (c : ECBCrypto) (ct : List Nat) :
    Except CryptoError (List Nat) :=
  if ct.length % 16 ≠ 0 then Except.error CryptoError.InvalidCiphertextLength
  else unpadBy c.mode (ecbDec A.dec ct) 16

/-- Modelled from the spec: the CFB Cipher Facade state. -/
structure CFBCrypto where
  key : List Nat
  iv : List Nat
deriving DecidableEq, Repr

/-- Modelled from the spec: `NewCFBCrypto` — validates key and IV lengths
once, at construction. -/
def NewCFBCrypto (key iv : List Nat) : Except CryptoError CFBCrypto :=
  if ¬ (key.length = 16 ∨ key.length = 24 ∨ key.length = 32) then
    Except.error CryptoError.InvalidKeyLength
  else if iv.length ≠ 16 then
    Except.error CryptoError.InvalidIVLength
  else
    Except.ok { key := key, iv := iv }

/-- Modelled from the spec: CFB `Encrypt` — stream mode, no padding;
ciphertext length equals plaintext length. -/
def CFBCrypto.Encrypt (A : BlockCipher) (c : CFBCrypto) (p : List Nat) :
    List Nat :=
  cfbEnc A.enc c.iv p

/-- Modelled from the spec: CFB `Decrypt` — the mirror transform, using the
forward block transform to regenerate the keystream; it cannot fail. -/
def CFBCrypto.Decrypt (A : BlockCipher) (c : CFBCrypto) (ct : List Nat) :
    List Nat :=
  cfbDec A.enc c.iv ct

/-- Modelled from the spec: the OFB Cipher Facade state. -/
structure OFBCrypto where
  key : List Nat
  iv : List Nat
deriving DecidableEq, Repr

/-- Modelled from the spec: `NewOFBCrypto` — validates key and IV lengths
once, at construction. -/
def NewOFBCrypto (key iv : List Nat) : Except CryptoError OFBCrypto :=
  if ¬ (key.length = 16 ∨ key.length = 24 ∨ key.length = 32) then
    Except.error CryptoError.InvalidKeyLength
  else if iv.length ≠ 16 then
    Except.error CryptoError.InvalidIVLength
  else
    Except.ok { key := key, iv := iv }

/-- Modelled from the spec: OFB `Encrypt` — XOR with the keystream obtained
by repeatedly encrypting the IV. -/
def OFBCrypto.Encrypt (A : BlockCipher) (c : OFBCrypto) (p : List Nat) :
    List Nat :=
  ofbStream A.enc c.iv p

/-- Modelled from the spec: OFB `Decrypt` — the identical XOR-with-keystream
transform. -/
def OFBCrypto.Decrypt (A : BlockCipher) (c : OFBCrypto) (ct : List Nat) :
    List Nat :=
  ofbStream A.enc c.iv ct

/-- Modelled from the spec: the CTR Cipher Facade state (the nonce is
treated as the initial counter block). -/
structure CTRCrypto where
  key : List Nat
  nonce : List Nat
deriving DecidableEq, Repr

/-- Modelled from the spec: `NewCTRCrypto` — validates the key length and
the nonce length (the nonce is the initial counter block, so it must equal
the block size) once, at construction. -/
def NewCTRCrypto (key nonce : List Nat) : Except CryptoError CTRCrypto :=
  if ¬ (key.length = 16 ∨ key.length = 24 ∨ key.length = 32) then
    Except.error CryptoError.InvalidKeyLength
  else if nonce.length ≠ 16 then
    Except.error CryptoError.InvalidNonceLength
  else
    Except.ok { key := key, nonce := nonce }

/-- Modelled from the spec: CTR `Encrypt` — XOR with the keystream of
encrypted successive counter values. -/
def CTRCrypto.Encrypt (A : BlockCipher) (c : CTRCrypto) (p : List Nat) :
    List Nat :=
  ctrStream A.enc c.nonce p

/-- Modelled from the spec: CTR `Decrypt` — the identical XOR-with-keystream
transform. -/
def CTRCrypto.Decrypt (A : BlockCipher) (c : CTRCrypto) (ct : List Nat) :
    List Nat :=
  ctrStream A.enc c.nonce ct

/-- Modelled from the spec: the GCM Cipher Facade state (the nonce may have
any length the underlying AEAD primitive accepts). -/
structure GCMCrypto where
  key : List Nat
  nonce : List Nat
deriving DecidableEq, Repr

/-- Modelled from the spec: `NewGCMCrypto` — validates the key length once,
at construction. -/
def NewGCMCrypto (key nonce : List Nat) : Except CryptoError GCMCrypto :=
  if ¬ (key.length = 16 ∨ key.length = 24 ∨ key.length = 32) then
    Except.error CryptoError.InvalidKeyLength
  else
    Except.ok { key := key, nonce := nonce }

/-- Modelled from the spec: the initial GCM counter block derived from the
nonce (for the standard 12-byte nonce this is the nonce followed by the
big-endian 32-bit value 1); it always has block length 16. -/
def gcmJ0 (nonce : List Nat) : List Nat :=
  (nonce ++ List.replicate 16 0).take 15 ++ [1]

/-- Modelled from the spec: GCM `Encrypt` — authenticated stream
encryption: the body is CTR keystream XOR starting from the incremented
initial counter block, and a 16-byte authentication tag computed over the
ciphertext (by the abstract tag function `tag`, standing for the GHASH/
finalisation of the AEAD primitive under the facade's key and nonce) is
appended to the output. -/
def GCMCrypto.Encrypt (A : BlockCipher) (tag : List Nat → List Nat)
    (c : GCMCrypto) (p : List Nat) : List Nat :=
  ctrStream A.enc (incrCounter (gcmJ0 c.nonce)) p ++
    tag (ctrStream A.enc (incrCounter (gcmJ0 c.nonce)) p)

/-- Modelled from the spec: GCM `Decrypt` — recomputes the tag over the
received ciphertext and fails with `AuthenticationFailed` if it does not
match, before any plaintext is produced; on a match the CTR body is
reversed.  An input shorter than one tag cannot carry a valid tag and is
likewise rejected. -/
def GCMCrypto.Decrypt (A : BlockCipher) (tag : List Nat → List Nat)
    (c : GCMCrypto) (input : List Nat) : Except CryptoError (List Nat) :=
  if input.length < 16 then Except.error CryptoError.AuthenticationFailed
  else if tag (input.take (input.length - 16)) = input.drop (input.length - 16) then
    Except.ok (ctrStream A.enc (incrCounter (gcmJ0 c.nonce))
      (input.take (input.length - 16)))
  else
    Except.error CryptoError.AuthenticationFailed

/-- Flip bit `j` of the byte at position `i` (XOR with `2 ^ j`). -/
def flipBit (l : List Nat) (i j : Nat) : List Nat :=
  match l, i with
  | [], _ => []
  | a :: as, 0 => (a ^^^ (1 <<< j)) :: as
  | a :: as, i + 1 => a :: flipBit as i j

/-!
## The persistence helper `GetGoodsCodeNum`

Embedded from `src/dao/article_dao.go` lines 83–89.  The gorm `Count`
method stores the row count through its out-parameter and returns the
(always non-nil) `*gorm.DB` chain handle; the Go code binds that handle to
`err` and compares it with `nil`.  The handle is modelled as an
`Option GormDB` (`some` = non-nil pointer), and the database as a function
from a goods id to the number of matching rows.
-/

/-- The state visible to `GetGoodsCodeNum`: for each goods id, how many
article rows carry it (what `SELECT COUNT(*) ... WHERE goods_id = ?` would
return), plus the error recorded on the chain handle. -/
structure GormDB where
  countRows : Int → Int
  dbError : Option String

/-- Embedded from the Go source: `db.Model(&model.Article{}).Where(
"goods_id = ?", id).Count(&total)` — returns the chain handle (a non-nil
`*gorm.DB`, hence `some`) and stores the count in `total`. -/
def gormCount (db : GormDB) (id : Int) : Option GormDB × Int :=
  (some db, db.countRows id)

/-- Embedded from the Go source (lines 83–89): `GetGoodsCodeNum` binds the
`*gorm.DB` returned by `Count` to `err` and returns 0 when `err != nil`,
otherwise the counted total. -/
def GetGoodsCodeNum (db : GormDB) (id : Int) : Int :=
  match gormCount db id with
  | (some _, _) => 0
  | (none, total) => total

/-!
## `IP2Long` and `Long2IP`

Embedded from `src/dao/article_dao.go` lines 203–217.  `IP2Long` parses a
dotted-decimal IPv4 string (the `net.ParseIP(...).To4()` pipeline on its
IPv4 path: one to three decimal digits per field, no leading zeros, each
field at most 255, exactly four fields) and packs the four bytes
big-endian; any parse failure yields 0.  `Long2IP` renders the four bytes
of a `uint32` in dotted-decimal form exactly as Go's `net.IP.String`
(`ubtoa`) does.
-/

/-- Split a character list into its maximal leading run of decimal digits
and the rest. -/
def takeDigits : List Char → List Char × List Char
  | [] => ([], [])
  | c :: cs =>
    if c.isDigit then ((c :: (takeDigits cs).1), (takeDigits cs).2)
    else ([], c :: cs)

/-- Decimal value of a digit run. -/
def digitsVal (ds : List Char) : Nat :=
  List.foldl (fun a c => a * 10 + (c.toNat - 48)) 0 ds

/-- One dotted-decimal field, as Go's IPv4 parser reads it: a non-empty
digit run without leading zeros whose value is at most 255; returns the
value and the unconsumed remainder. -/
def parseField (cs : List Char) : Option (Nat × List Char) :=
  if (takeDigits cs).1 = [] then none
  else if 1 < (takeDigits cs).1.length ∧ (takeDigits cs).1.head? = some '0' then none
  else if 255 < digitsVal (takeDigits cs).1 then none
  else some (digitsVal (takeDigits cs).1, (takeDigits cs).2)

/-- Embedded from the Go source: the `net.ParseIP(...).To4()` pipeline on
dotted-decimal IPv4 input — four fields separated by single dots with
nothing left over.  (The IPv6 textual path of `ParseIP`, whose `To4` is
non-nil only for IPv4-mapped addresses, is outside the dotted-decimal
grammar and is not modelled; `Long2IP` never produces such strings.) -/
def parseIPv4 (cs : List Char) : Option (Nat × Nat × Nat × Nat) :=
  match parseField cs with
  | none => none
  | some (a, r1) =>
    match r1 with
    | '.' :: r1x =>
      match parseField r1x with
      | none => none
      | some (b, r2) =>
        match r2 with
        | '.' :: r2x =>
          match parseField r2x with
          | none => none
          | some (c, r3) =>
            match r3 with
            | '.' :: r3x =>
              match parseField r3x with
              | none => none
              | some (d, r4) =>
                if r4 = [] then some (a, b, c, d) else none
            | _ => none
        | _ => none
    | _ => none

/-- Embedded from the Go source (lines 203–212): `IP2Long` — big-endian
packing of the four parsed bytes; 0 when parsing fails. -/
def IP2Long (s : String) : Nat :=
  match parseIPv4 s.data with
  | none => 0
  | some (a, b, c, d) => a * 16777216 + b * 65536 + c * 256 + d

/-- Go's `net.ubtoa`: decimal rendering of a byte value, one to three
digits, no leading zeros. -/
def ubtoa (n : Nat) : List Char :=
  if n < 10 then [Char.ofNat (48 + n)]
  else if n < 100 then [Char.ofNat (48 + n / 10), Char.ofNat (48 + n % 10)]
  else [Char.ofNat (48 + n / 100), Char.ofNat (48 + n / 10 % 10),
    Char.ofNat (48 + n % 10)]

/-- Embedded from the Go source (lines 214–217): `Long2IP` — renders
`byte(ip>>24) . byte(ip>>16) . byte(ip>>8) . byte(ip)` in dotted-decimal
form via `net.IPv4(...).String()`. -/
def Long2IP (ip : Nat) : String :=
  String.mk (ubtoa (ip / 16777216 % 256) ++ '.' ::
    (ubtoa (ip / 65536 % 256) ++ '.' ::
      (ubtoa (ip / 256 % 256) ++ '.' :: ubtoa (ip % 256))))

deriving instance DecidableEq for Except

/-- A trivial instance of the abstract GCM tag function, used to
instantiate theorems at concrete inputs: sixteen copies of the XOR of all
ciphertext bytes (any single-byte change to the ciphertext changes it). -/
def xorTag (cs : List Nat) : List Nat :=
  List.replicate 16 (cs.foldl Nat.xor 0)

/-- The 32 key bytes of `"AES256Key-32Characters1234567890"` used by every
test in the repository. -/
def yiigoKey : List Nat :=
  "AES256Key-32Characters1234567890".data.map Char.toNat

/-- The IV/nonce of the tests: the first 16 bytes of the key
(`key[:aes.BlockSize]`). -/
def yiigoIV : List Nat :=
  yiigoKey.take 16

/-- The 10 plaintext bytes of `"Iloveyiigo"` used by every test. -/
def yiigoPlain : List Nat :=
  "Iloveyiigo".data.map Char.toNat

/-!
## Generic lemmas about the embedded operations
-/

theorem idCipher_good : idCipher.good :=
  ⟨fun _ h => h, fun _ h => h, fun _ _ => rfl⟩

theorem xorBytes_length (a b : List Nat) :
    (xorBytes a b).length = min a.length b.length :=
  List.length_zipWith Nat.xor a b

theorem xorBytes_cancel :
    ∀ (a b : List Nat), a.length ≤ b.length → xorBytes (xorBytes a b) b = a := by
  intro a
  induction a with
  | nil => intro b _; cases b <;> rfl
  | cons x xs ih =>
    intro b hb
    cases b with
    | nil => simp at hb
    | cons y ys =>
      simp only [xorBytes, List.zipWith_cons_cons] at ih ⊢
      have hx : Nat.xor (Nat.xor x y) y = x := Nat.xor_cancel_right y x
      rw [hx]
      have hxs : xs.length ≤ ys.length := by
        simpa using hb
      exact congrArg (x :: ·) (ih ys hxs)

theorem chainMap_zero (step : List Nat → List Nat → List Nat × List Nat)
    (st : List Nat) (l : List Nat) : chainMap step 0 st l = [] := rfl

theorem chainMap_nil (step : List Nat → List Nat → List Nat × List Nat)
    (f : Nat) (st : List Nat) : chainMap step f st [] = [] := by
  cases f <;> rfl

theorem chainMap_cons (step : List Nat → List Nat → List Nat × List Nat)
    (f : Nat) (st : List Nat) (a : Nat) (as : List Nat) :
    chainMap step (f + 1) st (a :: as) =
      (step st ((a :: as).take 16)).1 ++
        chainMap step f (step st ((a :: as).take 16)).2 ((a :: as).drop 16) := rfl

/-- Length preservation of a `chainMap` pass over a block-aligned input,
given that each full-block step preserves the block length and the state
invariant. -/
theorem chainMap_length_aligned (Inv : List Nat → Prop)
    (step : List Nat → List Nat → List Nat × List Nat)
    (hstep : ∀ st blk, Inv st → blk.length = 16 →
      (step st blk).1.length = 16 ∧ Inv (step st blk).2) :
    ∀ (f : Nat) (st l : List Nat), l.length ≤ f → l.length % 16 = 0 → Inv st →
      (chainMap step f st l).length = l.length := by
  intro f
  induction f with
  | zero =>
    intro st l hl _ _
    have : l = [] := List.eq_nil_of_length_eq_zero (Nat.le_zero.mp hl)
    subst this
    rfl
  | succ f ih =>
    intro st l hl hm hinv
    cases l with
    | nil => rfl
    | cons a as =>
      rw [List.length_cons] at hl hm ⊢
      have hge : 16 ≤ as.length + 1 := by omega
      have hchunk : ((a :: as).take 16).length = 16 := by
        rw [List.length_take, List.length_cons]
        omega
      obtain ⟨ho, hi2⟩ := hstep st ((a :: as).take 16) hinv hchunk
      rw [chainMap_cons, List.length_append, ho,
        ih _ _ (by rw [List.length_drop, List.length_cons]; omega)
          (by rw [List.length_drop, List.length_cons]; omega) hi2,
        List.length_drop, List.length_cons]
      omega

/-- Length preservation of a `chainMap` pass over arbitrary input (stream
modes): full-block steps preserve 16 and the invariant, and a short final
step preserves the chunk length. -/
theorem chainMap_length_stream (Inv : List Nat → Prop)
    (step : List Nat → List Nat → List Nat × List Nat)
    (hstep : ∀ st blk, Inv st → blk.length = 16 →
      (step st blk).1.length = 16 ∧ Inv (step st blk).2)
    (hfin : ∀ st blk, Inv st → 0 < blk.length → blk.length < 16 →
      (step st blk).1.length = blk.length) :
    ∀ (f : Nat) (st l : List Nat), l.length ≤ f → Inv st →
      (chainMap step f st l).length = l.length := by
  intro f
  induction f with
  | zero =>
    intro st l hl _
    have : l = [] := List.eq_nil_of_length_eq_zero (Nat.le_zero.mp hl)
    subst this
    rfl
  | succ f ih =>
    intro st l hl hinv
    cases l with
    | nil => rfl
    | cons a as =>
      rw [List.length_cons] at hl ⊢
      by_cases hge : 16 ≤ as.length + 1
      · have hchunk : ((a :: as).take 16).length = 16 := by
          rw [List.length_take, List.length_cons]
          omega
        obtain ⟨ho, hi2⟩ := hstep st ((a :: as).take 16) hinv hchunk
        rw [chainMap_cons, List.length_append, ho,
          ih _ _ (by rw [List.length_drop, List.length_cons]; omega) hi2,
          List.length_drop, List.length_cons]
        omega
      · have htake : (a :: as).take 16 = a :: as :=
          List.take_of_length_le (by rw [List.length_cons]; omega)
        have hdrop : (a :: as).drop 16 = [] :=
          List.drop_eq_nil_of_le (by rw [List.length_cons]; omega)
        rw [chainMap_cons, htake, hdrop, chainMap_nil, List.append_nil]
        rw [hfin st (a :: as) hinv (by simp) (by rw [List.length_cons]; omega),
          List.length_cons]

/-- Round-trip of a `chainMap` encryption/decryption pair on block-aligned
input: each full-block encryption step produces a 16-byte chunk, preserves
the state invariant, and is undone by the decryption step, which also
reaches the same next state. -/
theorem chainMap_roundtrip_aligned (Inv : List Nat → Prop)
    (stepE stepD : List Nat → List Nat → List Nat × List Nat)
    (hstep : ∀ st blk, Inv st → blk.length = 16 →
      (stepE st blk).1.length = 16 ∧ Inv (stepE st blk).2 ∧
        stepD st (stepE st blk).1 = (blk, (stepE st blk).2)) :
    ∀ (f : Nat) (st l : List Nat), l.length ≤ f → l.length % 16 = 0 → Inv st →
      chainMap stepD f st (chainMap stepE f st l) = l := by
  intro f
  induction f with
  | zero =>
    intro st l hl _ _
    have : l = [] := List.eq_nil_of_length_eq_zero (Nat.le_zero.mp hl)
    subst this
    rfl
  | succ f ih =>
    intro st l hl hm hinv
    cases l with
    | nil => rfl
    | cons a as =>
      rw [List.length_cons] at hl hm
      have hchunk : ((a :: as).take 16).length = 16 := by
        rw [List.length_take, List.length_cons]
        omega
      obtain ⟨ho, hi2, hd⟩ := hstep st ((a :: as).take 16) hinv hchunk
      rw [chainMap_cons]
      cases houtE : (stepE st ((a :: as).take 16)).1 with
      | nil => rw [houtE] at ho; simp at ho
      | cons o os =>
        rw [houtE] at ho hd
        rw [List.cons_append, chainMap_cons, ← List.cons_append,
          List.take_left' ho, List.drop_left' ho, hd]
        rw [ih _ _ (by rw [List.length_drop, List.length_cons]; omega)
          (by rw [List.length_drop, List.length_cons]; omega) hi2]
        exact List.take_append_drop 16 (a :: as)

/-- Round-trip of a `chainMap` encryption/decryption pair on arbitrary
input (stream modes): additionally, a short final encryption step keeps
the chunk length and is undone by the decryption step. -/
theorem chainMap_roundtrip_stream (Inv : List Nat → Prop)
    (stepE stepD : List Nat → List Nat → List Nat × List Nat)
    (hstep : ∀ st blk, Inv st → blk.length = 16 →
      (stepE st blk).1.length = 16 ∧ Inv (stepE st blk).2 ∧
        stepD st (stepE st blk).1 = (blk, (stepE st blk).2))
    (hfin : ∀ st blk, Inv st → 0 < blk.length → blk.length < 16 →
      (stepE st blk).1.length = blk.length ∧
        (stepD st (stepE st blk).1).1 = blk) :
    ∀ (f : Nat) (st l : List Nat), l.length ≤ f → Inv st →
      chainMap stepD f st (chainMap stepE f st l) = l := by
  intro f
  induction f with
  | zero =>
    intro st l hl _
    have : l = [] := List.eq_nil_of_length_eq_zero (Nat.le_zero.mp hl)
    subst this
    rfl
  | succ f ih =>
    intro st l hl hinv
    cases l with
    | nil => rfl
    | cons a as =>
      rw [List.length_cons] at hl
      by_cases hge : 16 ≤ as.length + 1
      · have hchunk : ((a :: as).take 16).length = 16 := by
          rw [List.length_take, List.length_cons]
          omega
        obtain ⟨ho, hi2, hd⟩ := hstep st ((a :: as).take 16) hinv hchunk
        rw [chainMap_cons]
        cases houtE : (stepE st ((a :: as).take 16)).1 with
        | nil => rw [houtE] at ho; simp at ho
        | cons o os =>
          rw [houtE] at ho hd
          rw [List.cons_append, chainMap_cons, ← List.cons_append,
            List.take_left' ho, List.drop_left' ho, hd]
          rw [ih _ _ (by rw [List.length_drop, List.length_cons]; omega) hi2]
          exact List.take_append_drop 16 (a :: as)
      · have htake : (a :: as).take 16 = a :: as :=
          List.take_of_length_le (by rw [List.length_cons]; omega)
        have hdrop : (a :: as).drop 16 = [] :=
          List.drop_eq_nil_of_le (by rw [List.length_cons]; omega)
        obtain ⟨ho, hd⟩ := hfin st (a :: as) hinv (by simp)
          (by rw [List.length_cons]; omega)
        rw [chainMap_cons, htake, hdrop, chainMap_nil, List.append_nil]
        cases houtE : (stepE st (a :: as)).1 with
        | nil => rw [houtE] at ho; simp at ho
        | cons o os =>
          rw [houtE] at ho hd
          have hlen : (o :: os).length < 16 := by
            rw [ho, List.length_cons]
            omega
          rw [chainMap_cons,
            List.take_of_length_le (Nat.le_of_lt hlen),
            List.drop_eq_nil_of_le (Nat.le_of_lt hlen), chainMap_nil,
            List.append_nil, hd]

theorem incrCounterRev_length : ∀ l : List Nat, (incrCounterRev l).length = l.length := by
  intro l
  induction l with
  | nil => rfl
  | cons x xs ih =>
    rw [incrCounterRev]
    by_cases h : x + 1 < 256 <;> simp [h, ih]

theorem incrCounter_length (b : List Nat) : (incrCounter b).length = b.length := by
  rw [incrCounter, List.length_reverse, incrCounterRev_length, List.length_reverse]

theorem gcmJ0_length (nonce : List Nat) : (gcmJ0 nonce).length = 16 := by
  rw [gcmJ0, List.length_append, List.length_take, List.length_append,
    List.length_replicate]
  simp

theorem cbc_steps (A : BlockCipher) (hA : A.good) :
    ∀ st blk : List Nat, st.length = 16 → blk.length = 16 →
      (cbcEncStep A.enc st blk).1.length = 16 ∧
        (cbcEncStep A.enc st blk).2.length = 16 ∧
        cbcDecStep A.dec st (cbcEncStep A.enc st blk).1 =
          (blk, (cbcEncStep A.enc st blk).2) := by
  obtain ⟨hAe, hAd, hAi⟩ := hA
  intro st blk hst hblk
  have hxl : (xorBytes blk st).length = 16 := by
    rw [xorBytes_length, hst, hblk]
    simp
  have hel : (A.enc (xorBytes blk st)).length = 16 := hAe _ hxl
  refine ⟨hel, hel, ?_⟩
  simp only [cbcEncStep, cbcDecStep]
  rw [hAi _ hxl, xorBytes_cancel blk st (by rw [hst, hblk])]

theorem cbcEnc_length (A : BlockCipher) (hA : A.good) (iv l : List Nat)
    (hiv : iv.length = 16) (hl : l.length % 16 = 0) :
    (cbcEnc A.enc iv l).length = l.length :=
  chainMap_length_aligned (fun st => st.length = 16) _
    (fun st blk hst hblk =>
      ⟨(cbc_steps A hA st blk hst hblk).1, (cbc_steps A hA st blk hst hblk).2.1⟩)
    l.length iv l le_rfl hl hiv

theorem cbc_roundtrip (A : BlockCipher) (hA : A.good) (iv l : List Nat)
    (hiv : iv.length = 16) (hl : l.length % 16 = 0) :
    cbcDec A.dec iv (cbcEnc A.enc iv l) = l := by
  have hlen := cbcEnc_length A hA iv l hiv hl
  unfold cbcDec
  rw [hlen]
  exact chainMap_roundtrip_aligned (fun st => st.length = 16) _ _
    (fun st blk hst hblk =>
      ⟨(cbc_steps A hA st blk hst hblk).1, (cbc_steps A hA st blk hst hblk).2.1,
        (cbc_steps A hA st blk hst hblk).2.2⟩)
    l.length iv l le_rfl hl hiv

theorem ecb_steps (A : BlockCipher) (hA : A.good) :
    ∀ st blk : List Nat, blk.length = 16 →
      (ecbEncStep A.enc st blk).1.length = 16 ∧
        ecbDecStep A.dec st (ecbEncStep A.enc st blk).1 =
          (blk, (ecbEncStep A.enc st blk).2) := by
  obtain ⟨hAe, hAd, hAi⟩ := hA
  intro st blk hblk
  refine ⟨hAe _ hblk, ?_⟩
  simp only [ecbEncStep, ecbDecStep]
  rw [hAi _ hblk]

theorem ecbEnc_length (A : BlockCipher) (hA : A.good) (l : List Nat)
    (hl : l.length % 16 = 0) :
    (ecbEnc A.enc l).length = l.length :=
  chainMap_length_aligned (fun _ => True) _
    (fun st blk _ hblk => ⟨(ecb_steps A hA st blk hblk).1, trivial⟩)
    l.length [] l le_rfl hl trivial

theorem ecb_roundtrip (A : BlockCipher) (hA : A.good) (l : List Nat)
    (hl : l.length % 16 = 0) :
    ecbDec A.dec (ecbEnc A.enc l) = l := by
  have hlen := ecbEnc_length A hA l hl
  unfold ecbDec
  rw [hlen]
  exact chainMap_roundtrip_aligned (fun _ => True) _ _
    (fun st blk _ hblk =>
      ⟨(ecb_steps A hA st blk hblk).1, trivial, (ecb_steps A hA st blk hblk).2⟩)
    l.length [] l le_rfl hl trivial

theorem cfb_steps (A : BlockCipher) (hA : A.good) :
    ∀ st blk : List Nat, st.length = 16 → blk.length ≤ 16 →
      (cfbEncStep A.enc st blk).1.length = blk.length ∧
        cfbDecStep A.enc st (cfbEncStep A.enc st blk).1 =
          (blk, (cfbEncStep A.enc st blk).2) := by
  obtain ⟨hAe, hAd, hAi⟩ := hA
  intro st blk hst hblk
  have hks : (A.enc st).length = 16 := hAe _ hst
  have hol : (xorBytes blk (A.enc st)).length = blk.length := by
    rw [xorBytes_length, hks]
    omega
  refine ⟨hol, ?_⟩
  simp only [cfbEncStep, cfbDecStep]
  rw [xorBytes_cancel blk (A.enc st) (by rw [hks]; exact hblk)]

theorem cfbEnc_length (A : BlockCipher) (hA : A.good) (iv l : List Nat)
    (hiv : iv.length = 16) : (cfbEnc A.enc iv l).length = l.length := by
  have hAe := hA.1
  exact chainMap_length_stream (fun st => st.length = 16) _
    (fun st blk hst hblk => by
      have hks : (A.enc st).length = 16 := hAe _ hst
      constructor
      · show (xorBytes blk (A.enc st)).length = 16
        rw [xorBytes_length, hks, hblk]
        simp
      · show (xorBytes blk (A.enc st)).length = 16
        rw [xorBytes_length, hks, hblk]
        simp)
    (fun st blk hst _ hblk => by
      have hks : (A.enc st).length = 16 := hAe _ hst
      show (xorBytes blk (A.enc st)).length = blk.length
      rw [xorBytes_length, hks]
      omega)
    l.length iv l le_rfl hiv

theorem cfbDec_length (A : BlockCipher) (hA : A.good) (iv l : List Nat)
    (hiv : iv.length = 16) : (cfbDec A.enc iv l).length = l.length := by
  have hAe := hA.1
  exact chainMap_length_stream (fun st => st.length = 16) _
    (fun st blk hst hblk => by
      have hks : (A.enc st).length = 16 := hAe _ hst
      constructor
      · show (xorBytes blk (A.enc st)).length = 16
        rw [xorBytes_length, hks, hblk]
        simp
      · exact hblk)
    (fun st blk hst _ hblk => by
      have hks : (A.enc st).length = 16 := hAe _ hst
      show (xorBytes blk (A.enc st)).length = blk.length
      rw [xorBytes_length, hks]
      omega)
    l.length iv l le_rfl hiv

theorem cfb_roundtrip (A : BlockCipher) (hA : A.good) (iv l : List Nat)
    (hiv : iv.length = 16) :
    cfbDec A.enc iv (cfbEnc A.enc iv l) = l := by
  have hAe := hA.1
  have hlen := cfbEnc_length A hA iv l hiv
  unfold cfbDec
  rw [hlen]
  exact chainMap_roundtrip_stream (fun st => st.length = 16) _ _
    (fun st blk hst hblk => by
      have hks : (A.enc st).length = 16 := hAe _ hst
      refine ⟨?_, ?_, (cfb_steps A hA st blk hst (by rw [hblk])).2⟩
      · show (xorBytes blk (A.enc st)).length = 16
        rw [xorBytes_length, hks, hblk]
        simp
      · show (xorBytes blk (A.enc st)).length = 16
        rw [xorBytes_length, hks, hblk]
        simp)
    (fun st blk hst _ hblk => by
      refine ⟨(cfb_steps A hA st blk hst (Nat.le_of_lt hblk)).1, ?_⟩
      rw [(cfb_steps A hA st blk hst (Nat.le_of_lt hblk)).2])
    l.length iv l le_rfl hiv

theorem ofb_steps (A : BlockCipher) (hA : A.good) :
    ∀ st blk : List Nat, st.length = 16 → blk.length ≤ 16 →
      (ofbStep A.enc st blk).1.length = blk.length ∧
        ofbStep A.enc st (ofbStep A.enc st blk).1 =
          (blk, (ofbStep A.enc st blk).2) := by
  intro st blk hst hblk
  have hks : (A.enc st).length = 16 := hA.1 _ hst
  constructor
  · show (xorBytes blk (A.enc st)).length = blk.length
    rw [xorBytes_length, hks]
    omega
  · show (xorBytes (xorBytes blk (A.enc st)) (A.enc st), A.enc st) =
      (blk, A.enc st)
    rw [xorBytes_cancel blk (A.enc st) (by rw [hks]; exact hblk)]

theorem ofbStream_length (A : BlockCipher) (hA : A.good) (iv l : List Nat)
    (hiv : iv.length = 16) : (ofbStream A.enc iv l).length = l.length :=
  chainMap_length_stream (fun st => st.length = 16) _
    (fun st blk hst hblk => by
      refine ⟨?_, hA.1 _ hst⟩
      rw [(ofb_steps A hA st blk hst (by rw [hblk])).1, hblk])
    (fun st blk hst _ hblk =>
      (ofb_steps A hA st blk hst (Nat.le_of_lt hblk)).1)
    l.length iv l le_rfl hiv

theorem ofb_roundtrip (A : BlockCipher) (hA : A.good) (iv l : List Nat)
    (hiv : iv.length = 16) :
    ofbStream A.enc iv (ofbStream A.enc iv l) = l := by
  have hlen := ofbStream_length A hA iv l hiv
  conv_lhs => rw [ofbStream, hlen]
  exact chainMap_roundtrip_stream (fun st => st.length = 16) _ _
    (fun st blk hst hblk => by
      refine ⟨?_, hA.1 _ hst, (ofb_steps A hA st blk hst (by rw [hblk])).2⟩
      rw [(ofb_steps A hA st blk hst (by rw [hblk])).1, hblk])
    (fun st blk hst _ hblk => by
      refine ⟨(ofb_steps A hA st blk hst (Nat.le_of_lt hblk)).1, ?_⟩
      rw [(ofb_steps A hA st blk hst (Nat.le_of_lt hblk)).2])
    l.length iv l le_rfl hiv

theorem ctr_steps (A : BlockCipher) (hA : A.good) :
    ∀ st blk : List Nat, st.length = 16 → blk.length ≤ 16 →
      (ctrStep A.enc st blk).1.length = blk.length ∧
        ctrStep A.enc st (ctrStep A.enc st blk).1 =
          (blk, (ctrStep A.enc st blk).2) := by
  intro st blk hst hblk
  have hks : (A.enc st).length = 16 := hA.1 _ hst
  constructor
  · show (xorBytes blk (A.enc st)).length = blk.length
    rw [xorBytes_length, hks]
    omega
  · show (xorBytes (xorBytes blk (A.enc st)) (A.enc st), incrCounter st) =
      (blk, incrCounter st)
    rw [xorBytes_cancel blk (A.enc st) (by rw [hks]; exact hblk)]

theorem ctrStream_length (A : BlockCipher) (hA : A.good) (ctr l : List Nat)
    (hctr : ctr.length = 16) : (ctrStream A.enc ctr l).length = l.length :=
  chainMap_length_stream (fun st => st.length = 16) _
    (fun st blk hst hblk => by
      refine ⟨?_, ?_⟩
      · rw [(ctr_steps A hA st blk hst (by rw [hblk])).1, hblk]
      · show (incrCounter st).length = 16
        rw [incrCounter_length]
        exact hst)
    (fun st blk hst _ hblk =>
      (ctr_steps A hA st blk hst (Nat.le_of_lt hblk)).1)
    l.length ctr l le_rfl hctr

theorem ctr_roundtrip (A : BlockCipher) (hA : A.good) (ctr l : List Nat)
    (hctr : ctr.length = 16) :
    ctrStream A.enc ctr (ctrStream A.enc ctr l) = l := by
  have hlen := ctrStream_length A hA ctr l hctr
  conv_lhs => rw [ctrStream, hlen]
  exact chainMap_roundtrip_stream (fun st => st.length = 16) _ _
    (fun st blk hst hblk => by
      refine ⟨?_, ?_, (ctr_steps A hA st blk hst (by rw [hblk])).2⟩
      · rw [(ctr_steps A hA st blk hst (by rw [hblk])).1, hblk]
      · show (incrCounter st).length = 16
        rw [incrCounter_length]
        exact hst)
    (fun st blk hst _ hblk => by
      refine ⟨(ctr_steps A hA st blk hst (Nat.le_of_lt hblk)).1, ?_⟩
      rw [(ctr_steps A hA st blk hst (Nat.le_of_lt hblk)).2])
    l.length ctr l le_rfl hctr

theorem padBy_length_mod (pm : PaddingMode) (data : List Nat) :
    (padBy pm data 16).length % 16 = 0 := by
  have h : data.length % 16 < 16 := Nat.mod_lt _ (by omega)
  cases pm <;>
    simp only [padBy, zeroPad, pkcsPad, List.length_append,
      List.length_replicate] <;>
    omega

theorem pkcsUnpad_pkcsPad (data : List Nat) :
    pkcsUnpad (pkcsPad data 16) 16 = Except.ok data := by
  have hmod : data.length % 16 < 16 := Nat.mod_lt _ (by omega)
  set n := 16 - data.length % 16 with hn
  have hn1 : 1 ≤ n := by omega
  have hn16 : n ≤ 16 := by omega
  obtain ⟨k, hk⟩ : ∃ k, n = k + 1 := ⟨n - 1, by omega⟩
  have hrep : List.replicate n n = List.replicate k n ++ [n] := by
    rw [hk, List.replicate_succ']
  have hpad : pkcsPad data 16 = data ++ List.replicate n n := rfl
  have hlast : (pkcsPad data 16).getLast? = some n := by
    rw [hpad, hrep, ← List.append_assoc, List.getLast?_concat]
  have hplen : (pkcsPad data 16).length = data.length + n := by
    rw [hpad, List.length_append, List.length_replicate]
  simp only [pkcsUnpad, hlast]
  have hdrop : (pkcsPad data 16).drop ((pkcsPad data 16).length - n) =
      List.replicate n n := by
    rw [hplen, Nat.add_sub_cancel, hpad]
    exact List.drop_left data (List.replicate n n)
  have hall : ((pkcsPad data 16).drop ((pkcsPad data 16).length - n)).all
      (fun b => b = n) = true := by
    rw [hdrop, List.all_eq_true]
    intro x hx
    simp [List.eq_of_mem_replicate hx]
  have hcond : ¬ (n = 0 ∨ 16 < n ∨
      ¬ (((pkcsPad data 16).drop ((pkcsPad data 16).length - n)).all
        (fun b => b = n))) := by
    push_neg
    refine ⟨by omega, by omega, by rw [hall]⟩
  rw [if_neg hcond, hplen, Nat.add_sub_cancel, hpad,
    List.take_left data (List.replicate n n)]

theorem dropTrailingZeros_append_zeros (data : List Nat) (k : Nat) :
    dropTrailingZeros (data ++ List.replicate k 0) = dropTrailingZeros data := by
  unfold dropTrailingZeros
  rw [List.reverse_append, List.reverse_replicate]
  congr 1
  induction k with
  | zero => rfl
  | succ k ih =>
    rw [List.replicate_succ, List.cons_append, List.dropWhile_cons]
    simp [ih]

theorem dropTrailingZeros_no_zero (data : List Nat)
    (h : data.getLast? ≠ some 0) : dropTrailingZeros data = data := by
  unfold dropTrailingZeros
  cases hr : data.reverse with
  | nil =>
    have : data = [] := by
      have := congrArg List.reverse hr
      simpa using this
    rw [this]
    rfl
  | cons a t =>
    have ha : data.getLast? = some a := by
      rw [← List.head?_reverse, hr]
      rfl
    have ha0 : a ≠ 0 := by
      intro h0
      rw [h0] at ha
      exact h ha
    rw [List.dropWhile_cons, if_neg (by simpa using ha0), ← hr,
      List.reverse_reverse]

theorem zeroUnpad_zeroPad (data : List Nat) (bs : Nat)
    (h : data.getLast? ≠ some 0) :
    zeroUnpad (zeroPad data bs) = Except.ok data := by
  rw [zeroUnpad, zeroPad, dropTrailingZeros_append_zeros,
    dropTrailingZeros_no_zero data h]

theorem unpadBy_padBy (pm : PaddingMode) (p : List Nat)
    (h : pm ≠ PaddingMode.ZERO ∨ p.getLast? ≠ some 0) :
    unpadBy pm (padBy pm p 16) 16 = Except.ok p := by
  cases pm with
  | ZERO =>
    have hz : p.getLast? ≠ some 0 := by
      cases h with
      | inl h => exact absurd rfl h
      | inr h => exact h
    exact zeroUnpad_zeroPad p 16 hz
  | PKCS5 => exact pkcsUnpad_pkcsPad p
  | PKCS7 => exact pkcsUnpad_pkcsPad p

theorem gcm_roundtrip (A : BlockCipher) (hA : A.good)
    (tag : List Nat → List Nat) (htag : ∀ x, (tag x).length = 16)
    (g : GCMCrypto) (p : List Nat) :
    GCMCrypto.Decrypt A tag g (GCMCrypto.Encrypt A tag g p) = Except.ok p := by
  have hctr : (incrCounter (gcmJ0 g.nonce)).length = 16 := by
    rw [incrCounter_length, gcmJ0_length]
  set ct := ctrStream A.enc (incrCounter (gcmJ0 g.nonce)) p with hct
  have hctlen : ct.length = p.length := ctrStream_length A hA _ p hctr
  have henc : GCMCrypto.Encrypt A tag g p = ct ++ tag ct := rfl
  have hlen : (ct ++ tag ct).length = p.length + 16 := by
    rw [List.length_append, hctlen, htag]
  rw [GCMCrypto.Decrypt, henc, hlen]
  rw [if_neg (by omega)]
  have hsub : p.length + 16 - 16 = ct.length := by omega
  rw [hsub, List.take_left ct (tag ct), List.drop_left ct (tag ct), if_pos rfl]
  rw [hct, ctr_roundtrip A hA _ p hctr]

theorem NewCBCCrypto_ok (key iv : List Nat) (pm : PaddingMode) (c : CBCCrypto)
    (h : NewCBCCrypto key iv pm = Except.ok c) :
    c.key = key ∧ c.iv = iv ∧ c.mode = pm ∧ iv.length = 16 ∧
      (key.length = 16 ∨ key.length = 24 ∨ key.length = 32) := by
  unfold NewCBCCrypto at h
  split at h
  · exact absurd h (by simp)
  · split at h
    · exact absurd h (by simp)
    · rename_i hkey hiv
      have hc : { key := key, iv := iv, mode := pm : CBCCrypto } = c := by
        simpa using h
      rw [← hc]
      refine ⟨rfl, rfl, rfl, by omega, by omega⟩

theorem NewECBCrypto_ok (key : List Nat) (pm : PaddingMode) (c : ECBCrypto)
    (h : NewECBCrypto key pm = Except.ok c) :
    c.key = key ∧ c.mode = pm ∧
      (key.length = 16 ∨ key.length = 24 ∨ key.length = 32) := by
  unfold NewECBCrypto at h
  split at h
  · exact absurd h (by simp)
  · rename_i hkey
    have hc : { key := key, mode := pm : ECBCrypto } = c := by
      simpa using h
    rw [← hc]
    refine ⟨rfl, rfl, by omega⟩

theorem NewCFBCrypto_ok (key iv : List Nat) (c : CFBCrypto)
    (h : NewCFBCrypto key iv = Except.ok c) :
    c.key = key ∧ c.iv = iv ∧ iv.length = 16 ∧
      (key.length = 16 ∨ key.length = 24 ∨ key.length = 32) := by
  unfold NewCFBCrypto at h
  split at h
  · exact absurd h (by simp)
  · split at h
    · exact absurd h (by simp)
    · rename_i hkey hiv
      have hc : { key := key, iv := iv : CFBCrypto } = c := by
        simpa using h
      rw [← hc]
      refine ⟨rfl, rfl, by omega, by omega⟩

theorem NewOFBCrypto_ok (key iv : List Nat) (c : OFBCrypto)
    (h : NewOFBCrypto key iv = Except.ok c) :
    c.key = key ∧ c.iv = iv ∧ iv.length = 16 ∧
      (key.length = 16 ∨ key.length = 24 ∨ key.length = 32) := by
  unfold NewOFBCrypto at h
  split at h
  · exact absurd h (by simp)
  · split at h
    · exact absurd h (by simp)
    · rename_i hkey hiv
      have hc : { key := key, iv := iv : OFBCrypto } = c := by
        simpa using h
      rw [← hc]
      refine ⟨rfl, rfl, by omega, by omega⟩

theorem NewCTRCrypto_ok (key nonce : List Nat) (c : CTRCrypto)
    (h : NewCTRCrypto key nonce = Except.ok c) :
    c.key = key ∧ c.nonce = nonce ∧ nonce.length = 16 ∧
      (key.length = 16 ∨ key.length = 24 ∨ key.length = 32) := by
  unfold NewCTRCrypto at h
  split at h
  · exact absurd h (by simp)
  · split at h
    · exact absurd h (by simp)
    · rename_i hkey hnonce
      have hc : { key := key, nonce := nonce : CTRCrypto } = c := by
        simpa using h
      rw [← hc]
      refine ⟨rfl, rfl, by omega, by omega⟩

theorem NewGCMCrypto_ok (key nonce : List Nat) (c : GCMCrypto)
    (h : NewGCMCrypto key nonce = Except.ok c) :
    c.key = key ∧ c.nonce = nonce ∧
      (key.length = 16 ∨ key.length = 24 ∨ key.length = 32) := by
  unfold NewGCMCrypto at h
  split at h
  · exact absurd h (by simp)
  · rename_i hkey
    have hc : { key := key, nonce := nonce : GCMCrypto } = c := by
      simpa using h
    rw [← hc]
    refine ⟨rfl, rfl, by omega⟩

theorem flipBit_length : ∀ (l : List Nat) (i j : Nat),
    (flipBit l i j).length = l.length := by
  intro l
  induction l with
  | nil => intro i j; rfl
  | cons a as ih =>
    intro i j
    cases i with
    | zero => rfl
    | succ i => simp [flipBit, ih]

theorem flipBit_append_left : ∀ (x y : List Nat) (i j : Nat), i < x.length →
    flipBit (x ++ y) i j = flipBit x i j ++ y := by
  intro x
  induction x with
  | nil => intro y i j h; simp at h
  | cons a as ih =>
    intro y i j h
    cases i with
    | zero => rfl
    | succ i =>
      rw [List.length_cons] at h
      rw [List.cons_append]
      show a :: flipBit (as ++ y) i j = (a :: flipBit as i j) ++ y
      rw [ih y i j (by omega), List.cons_append]

theorem flipBit_append_right : ∀ (x y : List Nat) (i j : Nat), x.length ≤ i →
    flipBit (x ++ y) i j = x ++ flipBit y (i - x.length) j := by
  intro x
  induction x with
  | nil => intro y i j _; simp
  | cons a as ih =>
    intro y i j h
    rw [List.length_cons] at h
    cases i with
    | zero => omega
    | succ i =>
      rw [List.cons_append]
      show a :: flipBit (as ++ y) i j = a :: (as ++ flipBit y (i + 1 - (as.length + 1)) j)
      rw [ih y i j (by omega),
        show i + 1 - (as.length + 1) = i - as.length from by omega]

theorem flipBit_ne : ∀ (l : List Nat) (i j : Nat), i < l.length →
    flipBit l i j ≠ l := by
  intro l
  induction l with
  | nil => intro i j h; simp at h
  | cons a as ih =>
    intro i j h
    cases i with
    | zero =>
      intro heq
      have hhead : a ^^^ (1 <<< j) = a := by
        have := congrArg (fun t => t.headI) heq
        simpa using this
      have hj : (1 <<< j) ≠ 0 := by
        rw [Nat.one_shiftLeft]
        exact Nat.pos_iff_ne_zero.mp (Nat.pos_pow_of_pos j (by omega))
      have h3 : (1 <<< j) = 0 := by
        have h2 := congrArg (fun t => a ^^^ t) hhead
        simpa [← Nat.xor_assoc, Nat.xor_self, Nat.zero_xor] using h2
      exact hj h3
    | succ i =>
      rw [List.length_cons] at h
      intro hexq
      have : flipBit as i j = as := by
        have := congrArg List.tail hexq
        simpa [flipBit] using this
      exact ih i j (by omega) this

theorem takeDigits_digits : ∀ (ds rest : List Char),
    ds.all Char.isDigit = true →
    (∀ c, rest.head? = some c → c.isDigit = false) →
    takeDigits (ds ++ rest) = (ds, rest) := by
  intro ds
  induction ds with
  | nil =>
    intro rest _ hrest
    rw [List.nil_append]
    cases rest with
    | nil => rfl
    | cons r rs =>
      have hr : r.isDigit = false := hrest r rfl
      simp [takeDigits, hr]
  | cons d ds ih =>
    intro rest hds hrest
    rw [List.all_cons, Bool.and_eq_true] at hds
    rw [List.cons_append, takeDigits]
    simp [hds.1, ih rest hds.2 hrest]

set_option maxRecDepth 100000 in
theorem ubtoa_all_digits : ∀ b : Nat, b < 256 →
    (ubtoa b).all Char.isDigit = true := by decide

set_option maxRecDepth 100000 in
theorem ubtoa_ne_nil : ∀ b : Nat, b < 256 → ¬ (ubtoa b = []) := by decide

set_option maxRecDepth 100000 in
theorem ubtoa_no_leading : ∀ b : Nat, b < 256 →
    ¬ (1 < (ubtoa b).length ∧ (ubtoa b).head? = some '0') := by decide

set_option maxRecDepth 100000 in
theorem ubtoa_val : ∀ b : Nat, b < 256 → digitsVal (ubtoa b) = b := by decide

theorem parseField_ubtoa (b : Nat) (hb : b < 256) (rest : List Char)
    (hrest : ∀ c, rest.head? = some c → c.isDigit = false) :
    parseField (ubtoa b ++ rest) = some (b, rest) := by
  have ht := takeDigits_digits (ubtoa b) rest (ubtoa_all_digits b hb) hrest
  rw [parseField, ht]
  rw [if_neg (ubtoa_ne_nil b hb), if_neg (ubtoa_no_leading b hb),
    if_neg (by rw [ubtoa_val b hb]; omega), ubtoa_val b hb]

theorem dot_head_not_digit (t : List Char) :
    ∀ c, (('.' :: t).head?) = some c → c.isDigit = false := by
  intro c hc
  injection hc with hc
  rw [← hc]
  decide

theorem parseIPv4_Long2IP (v : Nat) :
    parseIPv4 (Long2IP v).data =
      some (v / 16777216 % 256, v / 65536 % 256, v / 256 % 256, v % 256) := by
  have hb0 : v / 16777216 % 256 < 256 := Nat.mod_lt _ (by omega)
  have hb1 : v / 65536 % 256 < 256 := Nat.mod_lt _ (by omega)
  have hb2 : v / 256 % 256 < 256 := Nat.mod_lt _ (by omega)
  have hb3 : v % 256 < 256 := Nat.mod_lt _ (by omega)
  have hdata : (Long2IP v).data =
      ubtoa (v / 16777216 % 256) ++ '.' ::
        (ubtoa (v / 65536 % 256) ++ '.' ::
          (ubtoa (v / 256 % 256) ++ '.' :: ubtoa (v % 256))) := rfl
  have h4 : parseField (ubtoa (v % 256)) = some (v % 256, []) := by
    have := parseField_ubtoa (v % 256) hb3 []
      (fun c hc => absurd hc (by simp))
    rw [List.append_nil] at this
    exact this
  have h3 : parseField (ubtoa (v / 256 % 256) ++ '.' :: ubtoa (v % 256)) =
      some (v / 256 % 256, '.' :: ubtoa (v % 256)) :=
    parseField_ubtoa _ hb2 _ (dot_head_not_digit _)
  have h2 : parseField (ubtoa (v / 65536 % 256) ++ '.' ::
      (ubtoa (v / 256 % 256) ++ '.' :: ubtoa (v % 256))) =
      some (v / 65536 % 256, '.' ::
        (ubtoa (v / 256 % 256) ++ '.' :: ubtoa (v % 256))) :=
    parseField_ubtoa _ hb1 _ (dot_head_not_digit _)
  have h1 : parseField (ubtoa (v / 16777216 % 256) ++ '.' ::
      (ubtoa (v / 65536 % 256) ++ '.' ::
        (ubtoa (v / 256 % 256) ++ '.' :: ubtoa (v % 256)))) =
      some (v / 16777216 % 256, '.' ::
        (ubtoa (v / 65536 % 256) ++ '.' ::
          (ubtoa (v / 256 % 256) ++ '.' :: ubtoa (v % 256)))) :=
    parseField_ubtoa _ hb0 _ (dot_head_not_digit _)
  rw [hdata]
  simp only [parseIPv4, h1, h2, h3, h4]
  simp

/-!
## The claims
-/

/-- C3: for every mode's constructor, a key whose length is not 16, 24 or
32 bytes fails with `InvalidKeyLength` at construction time, before any
Encrypt or Decrypt is attempted; the checks are made once, inside the
constructors (the `Encrypt`/`Decrypt` definitions perform no further
validation), and the `Except.error` result means no cipher object exists. -/
theorem c3_invalid_key_length (key iv nonce : List Nat) (pm : PaddingMode)
    (h16 : key.length ≠ 16) (h24 : key.length ≠ 24) (h32 : key.length ≠ 32) :
    NewCBCCrypto key iv pm = Except.error CryptoError.InvalidKeyLength ∧
    NewECBCrypto key pm = Except.error CryptoError.InvalidKeyLength ∧
    NewCFBCrypto key iv = Except.error CryptoError.InvalidKeyLength ∧
    NewOFBCrypto key iv = Except.error CryptoError.InvalidKeyLength ∧
    NewCTRCrypto key nonce = Except.error CryptoError.InvalidKeyLength ∧
    NewGCMCrypto key nonce = Except.error CryptoError.InvalidKeyLength := by
  have hc : ¬ (key.length = 16 ∨ key.length = 24 ∨ key.length = 32) := by
    omega
  exact ⟨by unfold NewCBCCrypto; rw [if_pos hc],
    by unfold NewECBCrypto; rw [if_pos hc],
    by unfold NewCFBCrypto; rw [if_pos hc],
    by unfold NewOFBCrypto; rw [if_pos hc],
    by unfold NewCTRCrypto; rw [if_pos hc],
    by unfold NewGCMCrypto; rw [if_pos hc]⟩

/-- Witness for C3: a concrete 15-byte key is rejected by the CBC and GCM
constructors. -/
theorem c3_invalid_key_length_witness :
    NewCBCCrypto (List.replicate 15 0) (List.replicate 16 0) PaddingMode.PKCS7 =
      Except.error CryptoError.InvalidKeyLength ∧
    NewGCMCrypto (List.replicate 15 0) (List.replicate 12 0) =
      Except.error CryptoError.InvalidKeyLength :=
  ⟨(c3_invalid_key_length (List.replicate 15 0) (List.replicate 16 0)
      (List.replicate 12 0) PaddingMode.PKCS7 (by decide) (by decide)
      (by decide)).1,
    (c3_invalid_key_length (List.replicate 15 0) (List.replicate 16 0)
      (List.replicate 12 0) PaddingMode.PKCS7 (by decide) (by decide)
      (by decide)).2.2.2.2.2⟩

/-- C8: for OFB and CTR, Encrypt and Decrypt are the identical transform —
for every byte sequence `x` and every fixed key and IV/nonce,
`Decrypt x = Encrypt x` (both XOR the input with the same keystream). -/
theorem c8_ofb_ctr_symmetric (A : BlockCipher) (o : OFBCrypto)
    (c : CTRCrypto) (x : List Nat) :
    OFBCrypto.Decrypt A o x = OFBCrypto.Encrypt A o x ∧
    CTRCrypto.Decrypt A c x = CTRCrypto.Encrypt A c x :=
  ⟨rfl, rfl⟩

/-- C9: `articleDao.GetGoodsCodeNum` returns 0 for every database handle
and every goods id, regardless of the row count: the non-nil `*gorm.DB`
returned by `Count` is compared with nil, so the `return 0` branch is
always taken and the counted total is never returned. -/
theorem c9_get_goods_code_num_always_zero (db : GormDB) (id : Int) :
    GetGoodsCodeNum db id = 0 := rfl

/-- C10: for every `uint32` value `v`, `IP2Long (Long2IP v) = v`; and for
every input string on which the IPv4 parse pipeline fails, `IP2Long`
returns 0 — the same value it returns for the valid address `"0.0.0.0"`,
so a 0 result does not distinguish the two cases. -/
theorem c10_ip2long_long2ip :
    (∀ v : Nat, v < 4294967296 → IP2Long (Long2IP v) = v) ∧
    (∀ s : String, parseIPv4 s.data = none → IP2Long s = 0) ∧
    IP2Long "0.0.0.0" = 0 := by
  refine ⟨?_, ?_, ?_⟩
  · intro v hv
    simp only [IP2Long, parseIPv4_Long2IP v]
    omega
  · intro s h
    simp only [IP2Long, h]
  · decide

/-- Witness for C10: the round trip at 3232235777 (= 192.168.1.1) and the
0 result on a string that is not an IPv4 address. -/
theorem c10_ip2long_long2ip_witness :
    IP2Long (Long2IP 3232235777) = 3232235777 ∧ IP2Long "gin-test" = 0 :=
  ⟨c10_ip2long_long2ip.1 3232235777 (by decide),
    c10_ip2long_long2ip.2.1 "gin-test" (by decide)⟩

/-- C2: with the 32-byte key `"AES256Key-32Characters1234567890"`, IV (and
CTR nonce) equal to its first 16 bytes and the 10-byte plaintext
`"Iloveyiigo"`: CBC with PKCS7 padding encrypts to exactly 16 bytes and
decrypting that ciphertext returns exactly the plaintext; CTR encrypts to
exactly 10 bytes and decrypting returns the original 10 bytes.  Stated for
every block cipher primitive satisfying its contract. -/
theorem c2_concrete_scenario (A : BlockCipher) (hA : A.good)
    (cb : CBCCrypto) (ct : CTRCrypto)
    (hcb : NewCBCCrypto yiigoKey yiigoIV PaddingMode.PKCS7 = Except.ok cb)
    (hct : NewCTRCrypto yiigoKey yiigoIV = Except.ok ct) :
    (CBCCrypto.Encrypt A cb yiigoPlain).length = 16 ∧
    CBCCrypto.Decrypt A cb (CBCCrypto.Encrypt A cb yiigoPlain) =
      Except.ok yiigoPlain ∧
    (CTRCrypto.Encrypt A ct yiigoPlain).length = 10 ∧
    CTRCrypto.Decrypt A ct (CTRCrypto.Encrypt A ct yiigoPlain) = yiigoPlain := by
  obtain ⟨-, hiv, hmode, hivlen, -⟩ := NewCBCCrypto_ok _ _ _ cb hcb
  obtain ⟨-, hnonce, hnlen, -⟩ := NewCTRCrypto_ok _ _ ct hct
  have hiv16 : cb.iv.length = 16 := by rw [hiv]; exact hivlen
  have hn16 : ct.nonce.length = 16 := by rw [hnonce]; exact hnlen
  have hpadmod : (padBy cb.mode yiigoPlain 16).length % 16 = 0 :=
    padBy_length_mod cb.mode yiigoPlain
  have hpadlen : (padBy cb.mode yiigoPlain 16).length = 16 := by
    rw [hmode]
    decide
  refine ⟨?_, ?_, ?_, ?_⟩
  · show (cbcEnc A.enc cb.iv (padBy cb.mode yiigoPlain 16)).length = 16
    rw [cbcEnc_length A hA _ _ hiv16 hpadmod, hpadlen]
  · unfold CBCCrypto.Encrypt CBCCrypto.Decrypt
    rw [cbcEnc_length A hA _ _ hiv16 hpadmod]
    rw [if_neg (by simp [hpadmod])]
    rw [cbc_roundtrip A hA _ _ hiv16 hpadmod]
    apply unpadBy_padBy
    rw [hmode]
    exact Or.inl (by decide)
  · show (ctrStream A.enc ct.nonce yiigoPlain).length = 10
    rw [ctrStream_length A hA _ _ hn16]
    decide
  · exact ctr_roundtrip A hA _ _ hn16

/-- Witness for C2: the concrete scenario evaluated with the identity
block cipher primitive. -/
theorem c2_concrete_scenario_witness :
    (CBCCrypto.Encrypt idCipher
      { key := yiigoKey, iv := yiigoIV, mode := PaddingMode.PKCS7 }
      yiigoPlain).length = 16 ∧
    CBCCrypto.Decrypt idCipher
      { key := yiigoKey, iv := yiigoIV, mode := PaddingMode.PKCS7 }
      (CBCCrypto.Encrypt idCipher
        { key := yiigoKey, iv := yiigoIV, mode := PaddingMode.PKCS7 }
        yiigoPlain) = Except.ok yiigoPlain ∧
    (CTRCrypto.Encrypt idCipher { key := yiigoKey, nonce := yiigoIV }
      yiigoPlain).length = 10 ∧
    CTRCrypto.Decrypt idCipher { key := yiigoKey, nonce := yiigoIV }
      (CTRCrypto.Encrypt idCipher { key := yiigoKey, nonce := yiigoIV }
        yiigoPlain) = yiigoPlain :=
  c2_concrete_scenario idCipher idCipher_good
    { key := yiigoKey, iv := yiigoIV, mode := PaddingMode.PKCS7 }
    { key := yiigoKey, nonce := yiigoIV } (by decide) (by decide)

/-- C6: Zero padding appends `0x00` bytes up to a multiple of the block
size, appending a full block when the input is already aligned (including
empty input); Unpad strips all trailing `0x00` bytes; consequently, for
every plaintext that does not end in a `0x00` byte,
`Unpad (Pad data bs) = data`. -/
theorem c6_zero_padding_behaviour (data : List Nat) (k bs : Nat)
    (hbs : 0 < bs) :
    (zeroPad data bs).length % bs = 0 ∧
    (data.length % bs = 0 → zeroPad data bs = data ++ List.replicate bs 0) ∧
    zeroUnpad (data ++ List.replicate k 0) = zeroUnpad data ∧
    (data.getLast? ≠ some 0 → zeroUnpad (zeroPad data bs) = Except.ok data) := by
  refine ⟨?_, ?_, ?_, ?_⟩
  · rw [zeroPad, List.length_append, List.length_replicate]
    have hr : data.length % bs < bs := Nat.mod_lt _ hbs
    obtain ⟨q, hq⟩ : ∃ q, data.length = bs * q + data.length % bs :=
      ⟨data.length / bs, (Nat.div_add_mod data.length bs).symm⟩
    have he : data.length + (bs - data.length % bs) = bs * (q + 1) := by
      rw [Nat.mul_succ]
      omega
    rw [he, Nat.mul_mod_right]
  · intro h
    rw [zeroPad, h, Nat.sub_zero]
  · rw [zeroUnpad, zeroUnpad, dropTrailingZeros_append_zeros]
  · intro h
    exact zeroUnpad_zeroPad data bs h

/-- Witness for C6: the round trip on a concrete plaintext not ending in
`0x00`, and the full block appended to an aligned (empty) input. -/
theorem c6_zero_padding_behaviour_witness :
    zeroUnpad (zeroPad [1, 2] 16) = Except.ok [1, 2] ∧
    zeroPad [] 16 = [] ++ List.replicate 16 0 :=
  ⟨(c6_zero_padding_behaviour [1, 2] 3 16 (by decide)).2.2.2 (by decide),
    (c6_zero_padding_behaviour [] 3 16 (by decide)).2.1 (by decide)⟩

/-- C7: for the stream-like modes CFB, OFB and CTR, Encrypt and Decrypt
both preserve the input length exactly; for the block modes CBC and ECB,
every ciphertext produced by Encrypt has length a whole multiple of the
16-byte block size. -/
theorem c7_length_properties (A : BlockCipher) (hA : A.good) :
    (∀ key iv c (x : List Nat), NewCFBCrypto key iv = Except.ok c →
      (CFBCrypto.Encrypt A c x).length = x.length ∧
      (CFBCrypto.Decrypt A c x).length = x.length) ∧
    (∀ key iv c (x : List Nat), NewOFBCrypto key iv = Except.ok c →
      (OFBCrypto.Encrypt A c x).length = x.length ∧
      (OFBCrypto.Decrypt A c x).length = x.length) ∧
    (∀ key nonce c (x : List Nat), NewCTRCrypto key nonce = Except.ok c →
      (CTRCrypto.Encrypt A c x).length = x.length ∧
      (CTRCrypto.Decrypt A c x).length = x.length) ∧
    (∀ key iv pm c (p : List Nat), NewCBCCrypto key iv pm = Except.ok c →
      (CBCCrypto.Encrypt A c p).length % 16 = 0) ∧
    (∀ key pm c (p : List Nat), NewECBCrypto key pm = Except.ok c →
      (ECBCrypto.Encrypt A c p).length % 16 = 0) := by
  refine ⟨?_, ?_, ?_, ?_, ?_⟩
  · intro key iv c x hok
    obtain ⟨-, hiv, hivlen, -⟩ := NewCFBCrypto_ok key iv c hok
    have h16 : c.iv.length = 16 := by rw [hiv]; exact hivlen
    exact ⟨cfbEnc_length A hA _ x h16, cfbDec_length A hA _ x h16⟩
  · intro key iv c x hok
    obtain ⟨-, hiv, hivlen, -⟩ := NewOFBCrypto_ok key iv c hok
    have h16 : c.iv.length = 16 := by rw [hiv]; exact hivlen
    exact ⟨ofbStream_length A hA _ x h16, ofbStream_length A hA _ x h16⟩
  · intro key nonce c x hok
    obtain ⟨-, hnonce, hnlen, -⟩ := NewCTRCrypto_ok key nonce c hok
    have h16 : c.nonce.length = 16 := by rw [hnonce]; exact hnlen
    exact ⟨ctrStream_length A hA _ x h16, ctrStream_length A hA _ x h16⟩
  · intro key iv pm c p hok
    obtain ⟨-, hiv, -, hivlen, -⟩ := NewCBCCrypto_ok key iv pm c hok
    have h16 : c.iv.length = 16 := by rw [hiv]; exact hivlen
    show (cbcEnc A.enc c.iv (padBy c.mode p 16)).length % 16 = 0
    rw [cbcEnc_length A hA _ _ h16 (padBy_length_mod _ _)]
    exact padBy_length_mod _ _
  · intro key pm c p hok
    show (ecbEnc A.enc (padBy c.mode p 16)).length % 16 = 0
    rw [ecbEnc_length A hA _ (padBy_length_mod _ _)]
    exact padBy_length_mod _ _

/-- Witness for C7: concrete length preservation for CFB and block
alignment for CBC with the identity primitive. -/
theorem c7_length_properties_witness :
    (CFBCrypto.Encrypt idCipher { key := yiigoKey, iv := yiigoIV }
      [1, 2, 3]).length = 3 ∧
    (CBCCrypto.Encrypt idCipher
      { key := yiigoKey, iv := yiigoIV, mode := PaddingMode.ZERO }
      [1, 2, 3]).length % 16 = 0 :=
  ⟨((c7_length_properties idCipher idCipher_good).1 yiigoKey yiigoIV
      { key := yiigoKey, iv := yiigoIV } [1, 2, 3] (by decide)).1,
    (c7_length_properties idCipher idCipher_good).2.2.2.1 yiigoKey yiigoIV
      PaddingMode.ZERO { key := yiigoKey, iv := yiigoIV, mode := PaddingMode.ZERO }
      [1, 2, 3] (by decide)⟩

/-- C1 (counterexample): the round-trip claim fails as stated.  With the
identity primitive (which satisfies the block cipher contract), a CBC
cipher validly constructed with a 16-byte key, a 16-byte IV and the ZERO
padding selector maps the one-byte plaintext `[0]` to a ciphertext whose
decryption is `[]`, not `[0]`: Zero padding cannot distinguish trailing
zero bytes of the plaintext from padding. -/
theorem c1_roundtrip_counterexample :
    NewCBCCrypto (List.replicate 16 0) (List.replicate 16 0)
      PaddingMode.ZERO = Except.ok
        { key := List.replicate 16 0, iv := List.replicate 16 0,
          mode := PaddingMode.ZERO } ∧
    idCipher.good ∧
    CBCCrypto.Decrypt idCipher
      { key := List.replicate 16 0, iv := List.replicate 16 0,
        mode := PaddingMode.ZERO }
      (CBCCrypto.Encrypt idCipher
        { key := List.replicate 16 0, iv := List.replicate 16 0,
          mode := PaddingMode.ZERO } [0]) = Except.ok [] ∧
    (Except.ok [] : Except CryptoError (List Nat)) ≠ Except.ok [0] :=
  ⟨by decide, idCipher_good, by decide, by decide⟩

/-- C1 (amended): `Decrypt (Encrypt p) = p` holds for every validly
constructed cipher of every mode and every plaintext, except that for the
block modes CBC and ECB under the ZERO padding selector the plaintext must
not end in a `0x00` byte (Zero padding is structurally lossy there, as the
specification itself notes); PKCS5/PKCS7 and all stream/AEAD modes round
trip unconditionally.  Stated for every block cipher primitive satisfying
its contract and, for GCM, every 16-byte tag function. -/
theorem c1_roundtrip_amended (A : BlockCipher) (hA : A.good)
    (tag : List Nat → List Nat) (htag : ∀ x, (tag x).length = 16) :
    (∀ key iv pm cb (p : List Nat), NewCBCCrypto key iv pm = Except.ok cb →
      (pm ≠ PaddingMode.ZERO ∨ p.getLast? ≠ some 0) →
      CBCCrypto.Decrypt A cb (CBCCrypto.Encrypt A cb p) = Except.ok p) ∧
    (∀ key pm eb (p : List Nat), NewECBCrypto key pm = Except.ok eb →
      (pm ≠ PaddingMode.ZERO ∨ p.getLast? ≠ some 0) →
      ECBCrypto.Decrypt A eb (ECBCrypto.Encrypt A eb p) = Except.ok p) ∧
    (∀ key iv cf (p : List Nat), NewCFBCrypto key iv = Except.ok cf →
      CFBCrypto.Decrypt A cf (CFBCrypto.Encrypt A cf p) = p) ∧
    (∀ key iv ob (p : List Nat), NewOFBCrypto key iv = Except.ok ob →
      OFBCrypto.Decrypt A ob (OFBCrypto.Encrypt A ob p) = p) ∧
    (∀ key nonce cr (p : List Nat), NewCTRCrypto key nonce = Except.ok cr →
      CTRCrypto.Decrypt A cr (CTRCrypto.Encrypt A cr p) = p) ∧
    (∀ key nonce g (p : List Nat), NewGCMCrypto key nonce = Except.ok g →
      GCMCrypto.Decrypt A tag g (GCMCrypto.Encrypt A tag g p) =
        Except.ok p) := by
  refine ⟨?_, ?_, ?_, ?_, ?_, ?_⟩
  · intro key iv pm cb p hok hpm
    obtain ⟨-, hiv, hmode, hivlen, -⟩ := NewCBCCrypto_ok key iv pm cb hok
    have hiv16 : cb.iv.length = 16 := by rw [hiv]; exact hivlen
    have hpadmod : (padBy cb.mode p 16).length % 16 = 0 :=
      padBy_length_mod cb.mode p
    unfold CBCCrypto.Encrypt CBCCrypto.Decrypt
    rw [cbcEnc_length A hA _ _ hiv16 hpadmod]
    rw [if_neg (by simp [hpadmod])]
    rw [cbc_roundtrip A hA _ _ hiv16 hpadmod]
    apply unpadBy_padBy
    rw [hmode]
    exact hpm
  · intro key pm eb p hok hpm
    obtain ⟨-, hmode, -⟩ := NewECBCrypto_ok key pm eb hok
    have hpadmod : (padBy eb.mode p 16).length % 16 = 0 :=
      padBy_length_mod eb.mode p
    unfold ECBCrypto.Encrypt ECBCrypto.Decrypt
    rw [ecbEnc_length A hA _ hpadmod]
    rw [if_neg (by simp [hpadmod])]
    rw [ecb_roundtrip A hA _ hpadmod]
    apply unpadBy_padBy
    rw [hmode]
    exact hpm
  · intro key iv cf p hok
    obtain ⟨-, hiv, hivlen, -⟩ := NewCFBCrypto_ok key iv cf hok
    have h16 : cf.iv.length = 16 := by rw [hiv]; exact hivlen
    exact cfb_roundtrip A hA _ p h16
  · intro key iv ob p hok
    obtain ⟨-, hiv, hivlen, -⟩ := NewOFBCrypto_ok key iv ob hok
    have h16 : ob.iv.length = 16 := by rw [hiv]; exact hivlen
    exact ofb_roundtrip A hA _ p h16
  · intro key nonce cr p hok
    obtain ⟨-, hnonce, hnlen, -⟩ := NewCTRCrypto_ok key nonce cr hok
    have h16 : cr.nonce.length = 16 := by rw [hnonce]; exact hnlen
    exact ctr_roundtrip A hA _ p h16
  · intro key nonce g p hok
    exact gcm_roundtrip A hA tag htag g p

/-- Witness for the amended C1: a concrete CBC/PKCS7 round trip with the
identity primitive. -/
theorem c1_roundtrip_amended_witness :
    CBCCrypto.Decrypt idCipher
      { key := List.replicate 16 1, iv := List.replicate 16 2,
        mode := PaddingMode.PKCS7 }
      (CBCCrypto.Encrypt idCipher
        { key := List.replicate 16 1, iv := List.replicate 16 2,
          mode := PaddingMode.PKCS7 } [9, 8, 7]) = Except.ok [9, 8, 7] :=
  (c1_roundtrip_amended idCipher idCipher_good (fun _ => List.replicate 16 0)
      (fun _ => by simp)).1 (List.replicate 16 1) (List.replicate 16 2)
    PaddingMode.PKCS7
    { key := List.replicate 16 1, iv := List.replicate 16 2,
      mode := PaddingMode.PKCS7 } [9, 8, 7] (by decide)
    (Or.inl (by decide))

/-- C4: for GCM, flipping any single bit of a valid Encrypt output —
`ciphertext ++ tag` — makes Decrypt fail with `AuthenticationFailed` and
return no plaintext: a flip inside the 16 tag bytes always mismatches the
recomputed tag, and a flip inside the ciphertext body mismatches whenever
the tag function separates the flipped ciphertext from the original (the
collision-freedom the AEAD primitive provides). -/
theorem c4_gcm_tamper_detected (A : BlockCipher) (hA : A.good)
    (tag : List Nat → List Nat) (htag : ∀ x, (tag x).length = 16)
    (key nonce : List Nat) (g : GCMCrypto)
    (_hg : NewGCMCrypto key nonce = Except.ok g)
    (p : List Nat) (i j : Nat)
    (hi : i < (GCMCrypto.Encrypt A tag g p).length)
    (hsep : i < p.length →
      tag (flipBit (ctrStream A.enc (incrCounter (gcmJ0 g.nonce)) p) i j) ≠
        tag (ctrStream A.enc (incrCounter (gcmJ0 g.nonce)) p)) :
    GCMCrypto.Decrypt A tag g (flipBit (GCMCrypto.Encrypt A tag g p) i j) =
      Except.error CryptoError.AuthenticationFailed := by
  have hctr : (incrCounter (gcmJ0 g.nonce)).length = 16 := by
    rw [incrCounter_length, gcmJ0_length]
  have hctlen : (ctrStream A.enc (incrCounter (gcmJ0 g.nonce)) p).length =
      p.length := ctrStream_length A hA _ p hctr
  set ct := ctrStream A.enc (incrCounter (gcmJ0 g.nonce)) p with hctdef
  have henc : GCMCrypto.Encrypt A tag g p = ct ++ tag ct := rfl
  have htlen : (tag ct).length = 16 := htag ct
  rw [henc] at hi ⊢
  rw [List.length_append, hctlen, htlen] at hi
  by_cases hcase : i < ct.length
  · rw [flipBit_append_left ct (tag ct) i j hcase]
    have hflen : (flipBit ct i j).length = ct.length := flipBit_length ct i j
    rw [GCMCrypto.Decrypt, List.length_append, hflen, hctlen, htlen]
    rw [if_neg (by omega)]
    have hsub : p.length + 16 - 16 = (flipBit ct i j).length := by
      rw [hflen, hctlen]
      omega
    rw [hsub, List.take_left _ (tag ct), List.drop_left _ (tag ct)]
    rw [if_neg (hsep (by rw [← hctlen]; exact hcase))]
  · have hge : ct.length ≤ i := by omega
    rw [flipBit_append_right ct (tag ct) i j hge]
    have hflen : (flipBit (tag ct) (i - ct.length) j).length = 16 := by
      rw [flipBit_length, htlen]
    have hfne : flipBit (tag ct) (i - ct.length) j ≠ tag ct :=
      flipBit_ne (tag ct) (i - ct.length) j
        (by rw [htlen, hctlen] at *; omega)
    rw [GCMCrypto.Decrypt, List.length_append, hflen, hctlen]
    rw [if_neg (by omega)]
    have hsub : p.length + 16 - 16 = ct.length := by
      rw [hctlen]
      omega
    rw [hsub, List.take_left ct _, List.drop_left ct _]
    have hfne2 : flipBit (tag ct) (i - p.length) j ≠ tag ct := by
      rw [← hctlen]
      exact hfne
    rw [if_neg (fun h => hfne2 h.symm)]

/-- Witness for C4: flipping bit 0 of the first ciphertext byte of a
concrete GCM encryption (identity primitive, XOR-fold tag) is rejected
with `AuthenticationFailed`. -/
theorem c4_gcm_tamper_detected_witness :
    GCMCrypto.Decrypt idCipher xorTag
      { key := List.replicate 16 0, nonce := List.replicate 12 0 }
      (flipBit (GCMCrypto.Encrypt idCipher xorTag
        { key := List.replicate 16 0, nonce := List.replicate 12 0 }
        [5]) 0 0) = Except.error CryptoError.AuthenticationFailed :=
  c4_gcm_tamper_detected idCipher idCipher_good xorTag
    (fun _ => by simp [xorTag]) (List.replicate 16 0) (List.replicate 12 0)
    { key := List.replicate 16 0, nonce := List.replicate 12 0 } (by decide)
    [5] 0 0 (by decide) (fun _ => by decide)

/-- C5: PKCS5/PKCS7 `Unpad` on block-aligned input reads the last byte as
`n` and fails with `InvalidPadding` exactly when `n` is 0, `n` exceeds the
block size, or some of the last `n` bytes differs from `n`; and whenever
it succeeds, the input provably consisted of the returned data followed by
`n` verified copies of `n` — so a corrupt trailing byte is never treated
as a valid small padding length. -/
theorem c5_pkcs_unpad_validation (data : List Nat) (bs n : Nat)
    (hlast : data.getLast? = some n) (_hbs : 0 < bs)
    (hble : bs ≤ data.length) (_halign : data.length % bs = 0) :
    (pkcsUnpad data bs = Except.error CryptoError.InvalidPadding ↔
      (n = 0 ∨ bs < n ∨ ∃ b ∈ data.drop (data.length - n), b ≠ n)) ∧
    (∀ out, pkcsUnpad data bs = Except.ok out →
      out = data.take (data.length - n) ∧
        data = out ++ List.replicate n n) := by
  have hiff : (¬ ((data.drop (data.length - n)).all (fun b => b = n) = true)) ↔
      ∃ b ∈ data.drop (data.length - n), b ≠ n := by
    rw [List.all_eq_true]
    push_neg
    simp
  simp only [pkcsUnpad, hlast]
  by_cases hcond : (n = 0 ∨ bs < n ∨
      ¬ ((data.drop (data.length - n)).all (fun b => b = n) = true))
  · rw [if_pos hcond]
    refine ⟨⟨fun _ => ?_, fun _ => rfl⟩, fun out hout => absurd hout (by simp)⟩
    rcases hcond with h | h | h
    · exact Or.inl h
    · exact Or.inr (Or.inl h)
    · exact Or.inr (Or.inr (hiff.mp h))
  · rw [if_neg hcond]
    push_neg at hcond
    obtain ⟨hn0, hnbs, hall⟩ := hcond
    refine ⟨⟨fun h => absurd h (by simp), fun h => ?_⟩, fun out hout => ?_⟩
    · rcases h with h | h | h
      · exact absurd h hn0
      · exact absurd h (by omega)
      · exact absurd hall (hiff.mpr h)
    · have hout2 : out = data.take (data.length - n) :=
        (Except.ok.inj hout).symm
      have hnle : n ≤ data.length := le_trans (by omega : n ≤ bs) hble
      have hdlen : (data.drop (data.length - n)).length = n := by
        rw [List.length_drop]
        omega
      have hrep : data.drop (data.length - n) = List.replicate n n := by
        rw [List.eq_replicate_iff]
        refine ⟨hdlen, ?_⟩
        intro b hb
        have h2 := List.all_eq_true.mp hall b hb
        simpa using h2
      refine ⟨hout2, ?_⟩
      rw [hout2]
      conv_lhs => rw [← List.take_append_drop (data.length - n) data]
      rw [hrep]

/-- Witness for C5: a block-aligned input whose trailing byte is 0 is
rejected with `InvalidPadding`, while a correctly padded input is not
rejected. -/
theorem c5_pkcs_unpad_validation_witness :
    pkcsUnpad [7, 7, 7, 7, 7, 7, 7, 7, 7, 7, 7, 7, 7, 7, 7, 0] 16 =
      Except.error CryptoError.InvalidPadding ∧
    pkcsUnpad [1, 2, 3, 13, 13, 13, 13, 13, 13, 13, 13, 13, 13, 13, 13, 13]
      16 ≠ Except.error CryptoError.InvalidPadding :=
  ⟨(c5_pkcs_unpad_validation
      [7, 7, 7, 7, 7, 7, 7, 7, 7, 7, 7, 7, 7, 7, 7, 0] 16 0 (by decide)
      (by decide) (by decide) (by decide)).1.mpr (Or.inl rfl),
    fun h =>
      absurd ((c5_pkcs_unpad_validation
        [1, 2, 3, 13, 13, 13, 13, 13, 13, 13, 13, 13, 13, 13, 13, 13] 16 13
        (by decide) (by decide) (by decide) (by decide)).1.mp h)
        (by decide)⟩
